import Mathlib

/-!
Verification development for the Zemixity client-side streaming
conversation engine.  The definitions below are a shallow embedding of
the TypeScript source:

* `src/src/hooks/useStreamingSearch.ts` — request coordination, stream
  decoding, event dispatch, content throttling, conversation ledger;
* `src/src/components/SearchResults.tsx` (`renderContentWithCitations`)
  and `src/src/components/ConversationMessage.tsx` (`renderedContent`) —
  citation substitution and sanitizisation of finalized turns.

React `useState` setters become fields of an explicit state record;
`useRef` cells become further fields; `AbortController` instances are
numbered handles with an aborted set; issued `fetch` calls are recorded
in a request log.  `setTimeout` for the content throttle is modelled
both untimed (a pending flag inside the hook state) and, for the
throttler claims, as an explicit deadline-based timer machine.
-/

namespace Zemixity

/-- `Source` record, from the `Source` interface of
`useStreamingSearch.ts` (title, url, snippet plus optional fields). -/
structure Source where
  title : String
  url : String
  snippet : String
  image : Option String := none
  favicon : Option String := none
  displayUrl : Option String := none
  publishDate : Option String := none
deriving DecidableEq

/-- Message role: the `'user' | 'assistant'` union. -/
inductive Role where
  | user
  | assistant
deriving DecidableEq

/-- `Message` record from `useStreamingSearch.ts` (a conversation turn). -/
structure Message where
  role : Role
  content : String
  sources : Option (List Source) := none
deriving DecidableEq

/-- The tagged stream events recognized by the dispatchers
(`data.type` switch in `search` and `followUp`). -/
inductive StreamEvent where
  | session_id (sessionId : String)
  | thread_id (threadId : String)
  | status (message : String)
  | token (content : String)
  | sources (sources : List Source)
  | related_questions (questions : List String)
  | done
  | error (message : String)
deriving DecidableEq

/-- The network requests the hook can issue (`fetch` call sites in
`search` and `followUp`). -/
inductive RequestKind where
  | searchQ (q : String)
  | multimodal (q : String)
  | followUpReq (sessionId : String) (threadId : Option String) (q : String)
deriving DecidableEq

/-- The body sent by a multimodal search: `query || 'Analyze this file'`. -/
def multimodalQuery (q : String) : String :=
  if q = "" then "Analyze this file" else q

/-- The request issued by `search`, depending on whether a file is
attached. -/
def requestOf (file : Bool) (q : String) : RequestKind :=
  if file then RequestKind.multimodal (multimodalQuery q) else RequestKind.searchQ q

/-- The full state of `useStreamingSearch`: every `useState` value, the
`useRef` cells (`pendingContentRef`, `throttleTimerRef`,
`abortControllerRef` as `currentOp`), a counter supplying fresh
controller identities, the set of aborted controllers, and the log of
issued fetches. -/
structure HookState where
  content : String
  sources : List Source
  relatedQuestions : List String
  status : String
  isLoading : Bool
  sessionId : Option String
  threadId : Option String
  error : Option String
  conversation : List Message
  currentQuery : String
  pendingContent : String
  throttleTimer : Bool
  currentOp : Option Nat
  aborted : List Nat
  nextOp : Nat
  requests : List (Nat × RequestKind)
deriving DecidableEq

/-- The initial hook state (all `useState` initial values). -/
def initialHookState : HookState where
  content := ""
  sources := []
  relatedQuestions := []
  status := ""
  isLoading := false
  sessionId := none
  threadId := none
  error := none
  conversation := []
  currentQuery := ""
  pendingContent := ""
  throttleTimer := false
  currentOp := none
  aborted := []
  nextOp := 0
  requests := []

/-- `throttledSetContent`: store the newest value in
`pendingContentRef`; schedule a flush only when none is pending. -/
def throttledSetContent (newContent : String) (st : HookState) : HookState :=
  let st1 := { st with pendingContent := newContent }
  if st1.throttleTimer then st1 else { st1 with throttleTimer := true }

/-- The throttle timer firing (`setTimeout` callback): publish
`pendingContentRef.current` into `content` and clear the timer. -/
def flushThrottle (st : HookState) : HookState :=
  if st.throttleTimer then
    { st with content := st.pendingContent, throttleTimer := false }
  else st

/-- `reset`: clears the listed state back to initial values, clears the
pending content ref and cancels a pending throttle timer.  (It does not
touch `sessionId`, `threadId` or the abort controller — see the C5
theorems.) -/
def reset (st : HookState) : HookState :=
  { st with
    content := ""
    sources := []
    relatedQuestions := []
    status := ""
    isLoading := false
    error := none
    conversation := []
    currentQuery := ""
    pendingContent := ""
    throttleTimer := false }

/-- The per-operation local accumulators of `search`/`followUp`
(the closure variables `currentContent` and `currentSources`). -/
structure OpLocal where
  currentContent : String
  currentSources : List Source
deriving DecidableEq

/-- One reaction of the `search` event dispatcher (the `switch
(data.type)` at lines 191–235 of `useStreamingSearch.ts`). -/
def dispatchSearchEvent (ev : StreamEvent) (p : OpLocal × HookState) :
    OpLocal × HookState :=
  let loc := p.1
  let st := p.2
  match ev with
  | StreamEvent.session_id s => (loc, { st with sessionId := some s })
  | StreamEvent.thread_id t => (loc, { st with threadId := some t })
  | StreamEvent.status m => (loc, { st with status := m })
  | StreamEvent.token c =>
      let loc2 := { loc with currentContent := loc.currentContent ++ c }
      (loc2, throttledSetContent loc2.currentContent st)
  | StreamEvent.sources srcs =>
      ({ loc with currentSources := srcs },
       { st with sources := srcs, status := "" })
  | StreamEvent.related_questions qs =>
      (loc, { st with relatedQuestions := qs })
  | StreamEvent.done =>
      (loc, { st with
        isLoading := false
        status := ""
        conversation := st.conversation ++
          [{ role := Role.assistant
             content := loc.currentContent
             sources := some loc.currentSources }] })
  | StreamEvent.error m =>
      (loc, { st with error := some m, isLoading := false, status := "" })

/-- One reaction of the `followUp` event dispatcher (the `switch` at
lines 327–363): identical to `search` except that there is no case for
`session_id` or `thread_id`, so those frames are ignored. -/
def dispatchFollowUpEvent (ev : StreamEvent) (p : OpLocal × HookState) :
    OpLocal × HookState :=
  let loc := p.1
  let st := p.2
  match ev with
  | StreamEvent.session_id _ => (loc, st)
  | StreamEvent.thread_id _ => (loc, st)
  | StreamEvent.status m => (loc, { st with status := m })
  | StreamEvent.token c =>
      let loc2 := { loc with currentContent := loc.currentContent ++ c }
      (loc2, throttledSetContent loc2.currentContent st)
  | StreamEvent.sources srcs =>
      ({ loc with currentSources := srcs },
       { st with sources := srcs, status := "" })
  | StreamEvent.related_questions qs =>
      (loc, { st with relatedQuestions := qs })
  | StreamEvent.done =>
      (loc, { st with
        isLoading := false
        status := ""
        conversation := st.conversation ++
          [{ role := Role.assistant
             content := loc.currentContent
             sources := some loc.currentSources }] })
  | StreamEvent.error m =>
      (loc, { st with error := some m, isLoading := false, status := "" })

/-- Processing a list of events of one `search` stream in arrival
order. -/
def processSearchEvents (es : List StreamEvent) (p : OpLocal × HookState) :
    OpLocal × HookState :=
  es.foldl (fun q e => dispatchSearchEvent e q) p

/-- The micro-steps of the synchronous prelude of `search`/`followUp`,
in source order. -/
inductive SearchStep where
  | abortCurrent
  | setQuery (q : String)
  | resetTransient
  | appendUserTurn (q : String)
  | resetTransientFollowUp
  | installController
  | issueFetch (file : Bool) (q : String)
  | issueFollowUpFetch (q : String)
deriving DecidableEq

/-- Effect of one prelude micro-step on the hook state. -/
def execStep (a : SearchStep) (st : HookState) : HookState :=
  match a with
  | SearchStep.abortCurrent =>
      match st.currentOp with
      | some h => { st with aborted := st.aborted ++ [h] }
      | none => st
  | SearchStep.setQuery q => { st with currentQuery := q }
  | SearchStep.resetTransient =>
      { st with
        content := ""
        sources := []
        relatedQuestions := []
        error := none
        isLoading := true
        status := "Connecting..." }
  | SearchStep.appendUserTurn q =>
      { st with conversation := st.conversation ++
          [{ role := Role.user, content := q, sources := none }] }
  | SearchStep.resetTransientFollowUp =>
      { st with
        content := ""
        sources := []
        error := none
        isLoading := true
        status := "Thinking..." }
  | SearchStep.installController =>
      { st with currentOp := some st.nextOp, nextOp := st.nextOp + 1 }
  | SearchStep.issueFetch file q =>
      match st.currentOp with
      | some h => { st with requests := st.requests ++ [(h, requestOf file q)] }
      | none => st
  | SearchStep.issueFollowUpFetch q =>
      match st.currentOp, st.sessionId with
      | some h, some sid =>
          { st with requests := st.requests ++
              [(h, RequestKind.followUpReq sid st.threadId q)] }
      | _, _ => st

/-- The synchronous prelude of `search`, in source order: abort the
previous controller, store the query, reset transient state, append the
user turn, install a fresh controller, issue the fetch. -/
def searchScript (q : String) (file : Bool) : List SearchStep :=
  [SearchStep.abortCurrent, SearchStep.setQuery q, SearchStep.resetTransient,
   SearchStep.appendUserTurn q, SearchStep.installController,
   SearchStep.issueFetch file q]

/-- Running the `search` prelude on the hook state. -/
def searchStart (q : String) (file : Bool) (st : HookState) : HookState :=
  (searchScript q file).foldl (fun s a => execStep a s) st

/-- The synchronous prelude of `followUp`, in source order (after the
session check): abort, store the query, append the user turn, reset the
per-turn transient state, install a fresh controller, issue the fetch. -/
def followUpScript (q : String) : List SearchStep :=
  [SearchStep.abortCurrent, SearchStep.setQuery q, SearchStep.appendUserTurn q,
   SearchStep.resetTransientFollowUp, SearchStep.installController,
   SearchStep.issueFollowUpFetch q]

/-- `followUp`: the guard `if (!sessionId)` fails fast on any falsy
session identity — both `null` and the empty string — logging to the
console only: no state change, no network request.  Otherwise run the
follow-up prelude. -/
def followUpStart (q : String) (st : HookState) : HookState :=
  match st.sessionId with
  | none => st
  | some sid =>
      if sid = "" then st
      else (followUpScript q).foldl (fun s a => execStep a s) st

/-- Concatenation of the payloads of the `token` events of a stream, in
arrival order. -/
def tokenConcat : List StreamEvent → String
  | [] => ""
  | StreamEvent.token c :: rest => c ++ tokenConcat rest
  | _ :: rest => tokenConcat rest

/-- The payload of the last `sources` event of a stream, or the default
when there is none. -/
def lastSourcesFrom : List StreamEvent → List Source → List Source
  | [], d => d
  | StreamEvent.sources ss :: rest, _ => lastSourcesFrom rest ss
  | _ :: rest, d => lastSourcesFrom rest d

/-- Number of `done` events in a stream. -/
def countDoneEvents (es : List StreamEvent) : Nat :=
  (es.filter (fun e => e = StreamEvent.done)).length

/-- Number of assistant turns in a conversation. -/
def countAssistantTurns (conv : List Message) : Nat :=
  (conv.filter (fun m => m.role = Role.assistant)).length

/-- The hook state after the `done` reaction commits an assistant turn. -/
def commitAssistant (loc : OpLocal) (st : HookState) : HookState :=
  { st with
    isLoading := false,
    status := "",
    conversation := st.conversation ++
      [{ role := Role.assistant, content := loc.currentContent,
         sources := some loc.currentSources }] }

/-- A concrete source used in witnesses. -/
def srcExample : Source :=
  { title := "Example", url := "https://example.com", snippet := "snippet" }

/-- A concrete state with an established session, a pending throttle
flush and an in-flight operation (controller 0). -/
def inFlightState : HookState :=
  { initialHookState with
    sessionId := some "sess-1",
    threadId := some "th-1",
    currentOp := some 0,
    nextOp := 1,
    isLoading := true,
    throttleTimer := true,
    pendingContent := "partial" }

/-- State right after a first `search` has started (controller 0 is the
current operation). -/
def supersededState : HookState := searchStart "first" false initialHookState

/-- The first operation's local accumulators after it processed a
`token "Hello"` frame. -/
def staleLocal : OpLocal :=
  (dispatchSearchEvent (StreamEvent.token "Hello")
    ({ currentContent := "", currentSources := [] }, supersededState)).1

/-- The shared state after a second `search` superseded the first one
(whose token frame had already been processed). -/
def newOpState : HookState :=
  searchStart "second" false
    (dispatchSearchEvent (StreamEvent.token "Hello")
      ({ currentContent := "", currentSources := [] }, supersededState)).2

/-- Prepend an element to the first part of a split (used to build up
`splitSep`). -/
def consHead {α : Type} (c : α) : List (List α) → List (List α)
  | [] => [[c]]
  | l :: ls => (c :: l) :: ls

/-- `buffer.split(sep)`: split a sequence at every occurrence of the
separator.  Like the JavaScript `String.prototype.split`, the result is
never empty, and a trailing separator yields a trailing empty part. -/
def splitSep {α : Type} [DecidableEq α] (sep : α) : List α → List (List α)
  | [] => [[]]
  | c :: r => if c = sep then [] :: splitSep sep r else consHead c (splitSep sep r)

/-- Concatenation of a list of chunks. -/
def chunksJoin {α : Type} : List (List α) → List α
  | [] => []
  | c :: r => c ++ chunksJoin r

/-- The `'data: '` event-frame marker. -/
def dataMarker : List Char := "data: ".data

/-- Processing one complete line (lines 186–239 of the source): only
lines starting with `data: ` are candidate frames; the JSON payload
after the marker is parsed (parser abstracted as `parse`), a frame that
fails to parse is dropped, and a parsed frame is dispatched. -/
def processLine (parse : String → Option StreamEvent)
    (dispatch : StreamEvent → OpLocal × HookState → OpLocal × HookState)
    (line : List Char) (p : OpLocal × HookState) : OpLocal × HookState :=
  if line.take 6 = dataMarker then
    match parse (String.mk (line.drop 6)) with
    | some ev => dispatch ev p
    | none => p
  else p

/-- Processing a list of complete lines in order. -/
def processLines (parse : String → Option StreamEvent)
    (dispatch : StreamEvent → OpLocal × HookState → OpLocal × HookState)
    (lines : List (List Char)) (p : OpLocal × HookState) : OpLocal × HookState :=
  lines.foldl (fun q line => processLine parse dispatch line q) p

/-- One iteration of the read loop: append the chunk to the carry-over
buffer, split on newline, keep the last (possibly incomplete) part as
the new buffer, and process the complete lines. -/
def streamStep (parse : String → Option StreamEvent)
    (dispatch : StreamEvent → OpLocal × HookState → OpLocal × HookState)
    (acc : List Char × (OpLocal × HookState)) (chunk : List Char) :
    List Char × (OpLocal × HookState) :=
  let parts := splitSep '\n' (acc.1 ++ chunk)
  (parts.getLastD [], processLines parse dispatch parts.dropLast acc.2)

/-- The whole read loop of `search`/`followUp` over a list of text
chunks; when the transport reports end of stream the loop just breaks,
so whatever remains in the carry-over buffer is discarded unparsed. -/
def runStream (parse : String → Option StreamEvent)
    (dispatch : StreamEvent → OpLocal × HookState → OpLocal × HookState)
    (chunks : List (List Char)) (p : OpLocal × HookState) :
    List Char × (OpLocal × HookState) :=
  chunks.foldl (streamStep parse dispatch) ([], p)

/-- Timed model of the content throttler: `pendingContent` is the ref
cell, `timer` the deadline of the scheduled `setTimeout` flush (if
any), `content` the visible value, and `now` the current clock. -/
structure ThrottleState where
  pendingContent : String
  timer : Option Nat
  content : String
  now : Nat
deriving DecidableEq

/-- Actions on the throttler: a call to `throttledSetContent` with a
new value at a given time, or the scheduled flush firing at a given
time. -/
inductive ThrottleAct where
  | supply (v : String) (t : Nat)
  | fire (t : Nat)
deriving DecidableEq

/-- One throttler step.  `supply` overwrites the pending value and
schedules a flush 33 ms ahead only when none is pending (the body of
`throttledSetContent`); `fire` publishes the pending value and clears
the timer (the `setTimeout` callback), and is only enabled once the
deadline has passed.  `none` marks an ill-timed action. -/
def throttleStep (st : ThrottleState) : ThrottleAct → Option ThrottleState
  | ThrottleAct.supply v t =>
      if st.now ≤ t then
        some { st with
          now := t,
          pendingContent := v,
          timer := match st.timer with
            | some d => some d
            | none => some (t + 33) }
      else none
  | ThrottleAct.fire t =>
      match st.timer with
      | some d =>
          if st.now ≤ t ∧ d ≤ t then
            some { st with now := t, content := st.pendingContent, timer := none }
          else none
      | none => none

/-- Running a trace of throttler actions. -/
def throttleRun (st : ThrottleState) : List ThrottleAct → Option ThrottleState
  | [] => some st
  | a :: rest =>
      match throttleStep st a with
      | some st2 => throttleRun st2 rest
      | none => none

/-- The last value supplied in a trace (default when none was). -/
def lastSuppliedD : List ThrottleAct → String → String
  | [], d => d
  | ThrottleAct.supply v _ :: rest, _ => lastSuppliedD rest v
  | ThrottleAct.fire _ :: rest, d => lastSuppliedD rest d

/-- An initial throttler state. -/
def throttleInit : ThrottleState :=
  { pendingContent := "", timer := none, content := "", now := 0 }

/-- Escaping of attribute values in `renderContentWithCitations`:
`url.replace(/"/g, '&quot;').replace(/'/g, '&#39;')` (39 is the
apostrophe code point). -/
def escAttr (s : String) : String :=
  String.mk (s.data.foldr (fun c acc =>
    if c = '"' then "&quot;".data ++ acc
    else if c.toNat = 39 then "&#39;".data ++ acc
    else c :: acc) [])

/-- The interactive superscript produced for an in-range citation
marker: the template literal of `renderContentWithCitations`, carrying
the zero-based source index, the escaped source URL and title, and the
marker's digits as visible text. -/
def citationSup (idx : Nat) (src : Source) (num : String) : String :=
  "<sup class=\"citation inline-flex items-center justify-center min-w-[18px] h-5 px-1.5 mx-0.5 text-xs font-semibold text-blue-600 bg-blue-50 hover:bg-blue-100 rounded cursor-pointer transition-all border border-blue-200\"\n        data-source-index=\""
    ++ toString idx ++ "\"\n        data-url=\"" ++ escAttr src.url
    ++ "\"\n        data-title=\"" ++ escAttr src.title
    ++ "\"\n        title=\"" ++ escAttr src.title
    ++ "\"\n      >" ++ num ++ "</sup>"

/-- `parseInt` on a digit string. -/
def natOfDigits (ds : List Char) : Nat :=
  ds.foldl (fun a c => a * 10 + (c.toNat - 48)) 0

/-- A default source (never used: the bounds check guards the index). -/
def dfltSource : Source := { title := "", url := "", snippet := "" }

/-- The replacement for one matched marker `[ds]`: `index = parseInt(ds)
- 1`; when `0 <= index < sources.length` the interactive superscript,
otherwise the literal marker text unchanged. -/
def markerOut (s : List Source) (ds : List Char) : List Char :=
  let n : Nat := natOfDigits ds
  let idx : Int := (n : Int) - 1
  if 0 ≤ idx ∧ idx < (s.length : Int) then
    (citationSup (n - 1) (s.getD (n - 1) dfltSource) (String.mk ds)).data
  else '[' :: (ds ++ [']'])

/-- Left-to-right scan implementing
`htmlContent.replace(/\[(\d+)\]/g, ...)`: the second argument is `none`
outside a candidate marker and `some ds` after `[` with digits `ds`
collected so far.  A completed `[digits]` is replaced via `markerOut`;
any failed candidate is emitted literally and scanning resumes, exactly
as the regex engine resumes after a failed match. -/
def substLoop (s : List Source) : List Char → Option (List Char) → List Char
  | [], none => []
  | [], some ds => '[' :: ds
  | c :: rest, none =>
      if c = '[' then substLoop s rest (some [])
      else c :: substLoop s rest none
  | c :: rest, some ds =>
      if c.isDigit then substLoop s rest (some (ds ++ [c]))
      else if c = ']' then
        if ds = [] then '[' :: ']' :: substLoop s rest none
        else markerOut s ds ++ substLoop s rest none
      else if c = '[' then '[' :: (ds ++ substLoop s rest (some []))
      else '[' :: (ds ++ (c :: substLoop s rest none))

/-- Citation substitution over a whole content string. -/
def substCitations (s : List Source) (content : List Char) : List Char :=
  substLoop s content none

/-- HTML tokens for the sanitizer model: raw text, or a tag with its
closing flag, lowercased name and attribute list. -/
inductive HtmlTok where
  | text (s : List Char)
  | tag (closing : Bool) (nm : List Char) (attrs : List (List Char × List Char))
deriving DecidableEq

/-- Whitespace inside a tag (spaces, newlines, tabs). -/
def isSpaceChar (c : Char) : Bool :=
  c == ' ' || c == '\n' || c == '\t' || c == '\r'

/-- Attribute-scanner modes. -/
inductive AttrMode where
  | seek
  | nameMode (nm : List Char)
  | eqMode (nm : List Char)
  | quoted (nm : List Char) (val : List Char)
  | unquoted (nm : List Char) (val : List Char)
deriving DecidableEq

/-- Single-pass attribute scanner over a tag body (after the name):
attribute names up to `=`, values either double-quoted or bare. -/
def attrLoop : List Char → AttrMode → List (List Char × List Char)
  | [], AttrMode.seek => []
  | [], AttrMode.nameMode nm => [(nm, [])]
  | [], AttrMode.eqMode nm => [(nm, [])]
  | [], AttrMode.quoted nm val => [(nm, val)]
  | [], AttrMode.unquoted nm val => [(nm, val)]
  | c :: r, AttrMode.seek =>
      if isSpaceChar c || c == '/' || c == '=' then attrLoop r AttrMode.seek
      else attrLoop r (AttrMode.nameMode [c])
  | c :: r, AttrMode.nameMode nm =>
      if c == '=' then attrLoop r (AttrMode.eqMode nm)
      else if isSpaceChar c || c == '/' then (nm, []) :: attrLoop r AttrMode.seek
      else attrLoop r (AttrMode.nameMode (nm ++ [c]))
  | c :: r, AttrMode.eqMode nm =>
      if c == '"' then attrLoop r (AttrMode.quoted nm [])
      else if isSpaceChar c then (nm, []) :: attrLoop r AttrMode.seek
      else attrLoop r (AttrMode.unquoted nm [c])
  | c :: r, AttrMode.quoted nm val =>
      if c == '"' then (nm, val) :: attrLoop r AttrMode.seek
      else attrLoop r (AttrMode.quoted nm (val ++ [c]))
  | c :: r, AttrMode.unquoted nm val =>
      if isSpaceChar c then (nm, val) :: attrLoop r AttrMode.seek
      else attrLoop r (AttrMode.unquoted nm (val ++ [c]))

/-- Interpret the inside of a `<...>` pair as a tag token. -/
def parseTagBody (body : List Char) : HtmlTok :=
  match body with
  | '/' :: b =>
      HtmlTok.tag true ((b.takeWhile Char.isAlphanum).map Char.toLower)
        (attrLoop (b.drop (b.takeWhile Char.isAlphanum).length) AttrMode.seek)
  | _ =>
      HtmlTok.tag false ((body.takeWhile Char.isAlphanum).map Char.toLower)
        (attrLoop (body.drop (body.takeWhile Char.isAlphanum).length) AttrMode.seek)

/-- Tokenizer modes: accumulating text, or inside a `<...>` tag. -/
inductive TokMode where
  | textMode (acc : List Char)
  | tagMode (acc : List Char)
deriving DecidableEq

/-- Single-pass HTML tokenizer: `<` opens a tag collected up to `>`;
an unterminated tag at end of input is kept as text. -/
def tokLoop : List Char → TokMode → List HtmlTok
  | [], TokMode.textMode acc => if acc = [] then [] else [HtmlTok.text acc]
  | [], TokMode.tagMode acc => [HtmlTok.text ('<' :: acc)]
  | c :: r, TokMode.textMode acc =>
      if c = '<' then
        if acc = [] then tokLoop r (TokMode.tagMode [])
        else HtmlTok.text acc :: tokLoop r (TokMode.tagMode [])
      else tokLoop r (TokMode.textMode (acc ++ [c]))
  | c :: r, TokMode.tagMode acc =>
      if c = '>' then parseTagBody acc :: tokLoop r (TokMode.textMode [])
      else tokLoop r (TokMode.tagMode (acc ++ [c]))

/-- Tokenize a string. -/
def tokenize (s : List Char) : List HtmlTok := tokLoop s (TokMode.textMode [])

/-- The `ALLOWED_TAGS` configuration used at both sanitizer call
sites. -/
def allowedTags : List (List Char) :=
  ["p", "br", "strong", "em", "ul", "ol", "li", "h1", "h2", "h3", "h4", "h5",
   "h6", "a", "code", "pre", "blockquote", "sup"].map String.data

/-- The `ALLOWED_ATTR` configuration used at both sanitizer call
sites. -/
def allowedAttrs : List (List Char) :=
  ["href", "target", "rel", "class", "data-source-index", "data-url",
   "data-title", "title"].map String.data

/-- `ALLOW_DATA_ATTR: true`: any `data-` attribute is kept. -/
def isDataAttr (nm : List Char) : Bool :=
  decide (nm.take 5 = "data-".data)

/-- Allow-list filtering of a token stream: text is kept, a tag outside
the allow list is stripped (its children remain), and a kept tag loses
every attribute that is neither allowed nor a `data-` attribute. -/
def sanitizeToks (toks : List HtmlTok) : List HtmlTok :=
  toks.filterMap (fun t =>
    match t with
    | HtmlTok.text s => some (HtmlTok.text s)
    | HtmlTok.tag cl nm attrs =>
        if nm ∈ allowedTags then
          some (HtmlTok.tag cl nm (attrs.filter (fun a =>
            decide (a.1 ∈ allowedAttrs) || isDataAttr a.1)))
        else none)

/-- Serialize an attribute list back to `name="value"` pairs. -/
def renderAttrs (attrs : List (List Char × List Char)) : List Char :=
  attrs.foldr (fun a acc =>
    ' ' :: (a.1 ++ ('=' :: '"' :: (a.2 ++ ('"' :: acc))))) []

/-- Serialize a token. -/
def renderTok : HtmlTok → List Char
  | HtmlTok.text s => s
  | HtmlTok.tag cl nm attrs =>
      '<' :: ((if cl then ['/'] else []) ++ nm ++ renderAttrs attrs ++ ['>'])

/-- Modelled from the spec: `DOMPurify.sanitize(html, { ALLOWED_TAGS,
ALLOWED_ATTR, ALLOW_DATA_ATTR: true })`.  The third-party DOMPurify
library is not part of this repository, so its behaviour under the
configuration used at both call sites is modelled from the spec's
description of the allow-list sanitizer: disallowed tags and
attributes are stripped, not escaped-and-shown. -/
def dompurifySanitize (s : List Char) : List Char :=
  chunksJoin ((sanitizeToks (tokenize s)).map renderTok)

/-- `renderContentWithCitations` of `SearchResults.tsx`: with an empty
source list the content is only sanitized; otherwise the citation
markers are substituted over the raw content and the result of the
substitution is sanitized. -/
def renderContentWithCitations (htmlContent : List Char)
    (sources : List Source) : List Char :=
  if sources.isEmpty then dompurifySanitize htmlContent
  else dompurifySanitize (substCitations sources htmlContent)

/-- The non-streaming `renderedContent` of `ConversationMessage.tsx`:
one further `DOMPurify.sanitize` pass over the received content. -/
def conversationRendered (content : List Char) : List Char :=
  dompurifySanitize content

/-- A two-element source list (the spec's citation example). -/
def twoSources : List Source :=
  [{ title := "First", url := "https://one.example", snippet := "a" },
   { title := "Second", url := "https://two.example", snippet := "b" }]

/-- The C3 counterexample input: a marker interrupted by a disallowed
tag, on which sanitize-then-substitute and substitute-then-sanitize
differ. -/
def cexContent : List Char := "[<div>1]</div>".data

/-- Number of bytes of the UTF-8 character started by a lead byte
(0 marks a byte that cannot start a character). -/
def lenOfLead (b : Nat) : Nat :=
  if b < 128 then 1
  else if b < 192 then 0
  else if b < 224 then 2
  else if b < 240 then 3
  else if b < 248 then 4
  else 0

/-- UTF-8 encoding of one code point. -/
def encodeChar (v : Nat) : List Nat :=
  if v < 128 then [v]
  else if v < 2048 then [192 + v / 64, 128 + v % 64]
  else if v < 65536 then [224 + v / 4096, 128 + v / 64 % 64, 128 + v % 64]
  else [240 + v / 262144, 128 + v / 4096 % 64, 128 + v / 64 % 64, 128 + v % 64]

/-- UTF-8 encoding of a code-point sequence. -/
def utf8Encode : List Nat → List Nat
  | [] => []
  | v :: rest => encodeChar v ++ utf8Encode rest

/-- Reassemble the code point from the bytes of one character. -/
def decodeBytes : List Nat → Nat
  | [b] => b
  | [b0, b1] => (b0 - 192) * 64 + (b1 - 128)
  | [b0, b1, b2] => (b0 - 224) * 4096 + (b1 - 128) * 64 + (b2 - 128)
  | [b0, b1, b2, b3] =>
      (b0 - 240) * 262144 + (b1 - 128) * 4096 + (b2 - 128) * 64 + (b3 - 128)
  | _ => 65533

/-- Greedy incremental decoder — `TextDecoder.decode(chunk, { stream:
true })`, modelled from the spec's requirement that byte-to-text
decoding be stateful across chunk boundaries (the decoder itself is a
platform API, not repository code): decode every complete character,
emit a replacement for a byte that cannot start a character, and
return the trailing incomplete bytes as carry-over. -/
def decodeAvail : List Nat → List Nat × List Nat
  | [] => ([], [])
  | b :: rest =>
      if lenOfLead b = 0 then
        let p := decodeAvail rest
        (65533 :: p.1, p.2)
      else if rest.length + 1 < lenOfLead b then ([], b :: rest)
      else
        let p := decodeAvail (rest.drop (lenOfLead b - 1))
        (decodeBytes (b :: rest.take (lenOfLead b - 1)) :: p.1, p.2)
  termination_by l => l.length
  decreasing_by
    all_goals simp
    all_goals omega

/-- The decoder threaded over a chunk sequence: each chunk is decoded
together with the carried-over bytes; the per-chunk decoded text and
the final carry-over are returned. -/
def decodeFold : List Nat → List (List Nat) → List (List Nat) × List Nat
  | buf, [] => ([], buf)
  | buf, chunk :: rest =>
      let d := decodeAvail (buf ++ chunk)
      let f := decodeFold d.2 rest
      (d.1 :: f.1, f.2)

/-- One iteration of the line accumulation (code-point level): split
the carry-over plus the newly decoded text at the newline code point
10, keep the last (possibly incomplete) part, deliver the rest. -/
def lineAccStep (acc : List Nat × List (List Nat)) (chunk : List Nat) :
    List Nat × List (List Nat) :=
  let parts := splitSep 10 (acc.1 ++ chunk)
  (parts.getLastD [], acc.2 ++ parts.dropLast)

/-- The byte-level read loop of `search`/`followUp`: incremental UTF-8
decode per chunk followed by the newline line splitting; the value is
the sequence of complete lines delivered for parsing. -/
def decodeLines (chunks : List (List Nat)) : List (List Nat) :=
  ((decodeFold [] chunks).1.foldl lineAccStep ([], [])).2

theorem processSearchEvents_append (a b : List StreamEvent)
    (p : OpLocal × HookState) :
    processSearchEvents (a ++ b) p =
      processSearchEvents b (processSearchEvents a p) := by
  simp [processSearchEvents, List.foldl_append]

theorem processSearchEvents_cons (e : StreamEvent) (rest : List StreamEvent)
    (p : OpLocal × HookState) :
    processSearchEvents (e :: rest) p =
      processSearchEvents rest (dispatchSearchEvent e p) := rfl

theorem throttledSetContent_conversation (c : String) (st : HookState) :
    (throttledSetContent c st).conversation = st.conversation := by
  simp only [throttledSetContent]
  split <;> rfl

theorem throttledSetContent_sessionId (c : String) (st : HookState) :
    (throttledSetContent c st).sessionId = st.sessionId := by
  simp only [throttledSetContent]
  split <;> rfl

theorem throttledSetContent_threadId (c : String) (st : HookState) :
    (throttledSetContent c st).threadId = st.threadId := by
  simp only [throttledSetContent]
  split <;> rfl

theorem dispatchSearchEvent_done (loc : OpLocal) (st : HookState) :
    dispatchSearchEvent StreamEvent.done (loc, st) =
      (loc, commitAssistant loc st) := rfl

theorem processSearchEvents_currentContent (es : List StreamEvent)
    (loc : OpLocal) (st : HookState) :
    (processSearchEvents es (loc, st)).1.currentContent =
      loc.currentContent ++ tokenConcat es := by
  induction es generalizing loc st with
  | nil => simp [processSearchEvents, tokenConcat]
  | cons e rest ih =>
    rw [processSearchEvents_cons]
    cases e with
    | session_id s => exact ih loc { st with sessionId := some s }
    | thread_id t => exact ih loc { st with threadId := some t }
    | status m => exact ih loc { st with status := m }
    | token c =>
        refine (ih { loc with currentContent := loc.currentContent ++ c }
          (throttledSetContent (loc.currentContent ++ c) st)).trans ?_
        show (loc.currentContent ++ c) ++ tokenConcat rest =
          loc.currentContent ++ (c ++ tokenConcat rest)
        rw [String.append_assoc]
    | sources ss =>
        exact ih { loc with currentSources := ss }
          { st with sources := ss, status := "" }
    | related_questions qs => exact ih loc { st with relatedQuestions := qs }
    | done => exact ih loc (commitAssistant loc st)
    | error m =>
        exact ih loc { st with error := some m, isLoading := false, status := "" }

theorem processSearchEvents_currentSources (es : List StreamEvent)
    (loc : OpLocal) (st : HookState) :
    (processSearchEvents es (loc, st)).1.currentSources =
      lastSourcesFrom es loc.currentSources := by
  induction es generalizing loc st with
  | nil => simp [processSearchEvents, lastSourcesFrom]
  | cons e rest ih =>
    rw [processSearchEvents_cons]
    cases e with
    | session_id s => exact ih loc { st with sessionId := some s }
    | thread_id t => exact ih loc { st with threadId := some t }
    | status m => exact ih loc { st with status := m }
    | token c =>
        exact ih { loc with currentContent := loc.currentContent ++ c }
          (throttledSetContent (loc.currentContent ++ c) st)
    | sources ss =>
        exact ih { loc with currentSources := ss }
          { st with sources := ss, status := "" }
    | related_questions qs => exact ih loc { st with relatedQuestions := qs }
    | done => exact ih loc (commitAssistant loc st)
    | error m =>
        exact ih loc { st with error := some m, isLoading := false, status := "" }

theorem processSearchEvents_conversation_noDone (es : List StreamEvent)
    (loc : OpLocal) (st : HookState)
    (h : ∀ e ∈ es, e ≠ StreamEvent.done) :
    (processSearchEvents es (loc, st)).2.conversation = st.conversation := by
  induction es generalizing loc st with
  | nil => simp [processSearchEvents]
  | cons e rest ih =>
    have hrest : ∀ x ∈ rest, x ≠ StreamEvent.done := by
      intro x hx
      exact h x (List.mem_cons_of_mem _ hx)
    rw [processSearchEvents_cons]
    cases e with
    | session_id s => exact ih loc { st with sessionId := some s } hrest
    | thread_id t => exact ih loc { st with threadId := some t } hrest
    | status m => exact ih loc { st with status := m } hrest
    | token c =>
        refine (ih { loc with currentContent := loc.currentContent ++ c }
          (throttledSetContent (loc.currentContent ++ c) st) hrest).trans ?_
        exact throttledSetContent_conversation _ _
    | sources ss =>
        exact ih { loc with currentSources := ss }
          { st with sources := ss, status := "" } hrest
    | related_questions qs => exact ih loc { st with relatedQuestions := qs } hrest
    | done => exact absurd rfl (h StreamEvent.done (List.mem_cons_self _ _))
    | error m =>
        exact ih loc { st with error := some m, isLoading := false, status := "" } hrest

theorem processSearchEvents_assistant_count (es : List StreamEvent)
    (loc : OpLocal) (st : HookState) :
    countAssistantTurns (processSearchEvents es (loc, st)).2.conversation =
      countAssistantTurns st.conversation + countDoneEvents es := by
  induction es generalizing loc st with
  | nil => simp [processSearchEvents, countDoneEvents]
  | cons e rest ih =>
    rw [processSearchEvents_cons]
    have hcount : ∀ e2 : StreamEvent, e2 ≠ StreamEvent.done →
        countDoneEvents (e2 :: rest) = countDoneEvents rest := by
      intro e2 he2
      simp [countDoneEvents, List.filter_cons, he2]
    cases e with
    | session_id s =>
        exact (ih loc { st with sessionId := some s }).trans
          (by rw [hcount _ (by simp)])
    | thread_id t =>
        exact (ih loc { st with threadId := some t }).trans
          (by rw [hcount _ (by simp)])
    | status m =>
        exact (ih loc { st with status := m }).trans
          (by rw [hcount _ (by simp)])
    | token c =>
        refine (ih { loc with currentContent := loc.currentContent ++ c }
          (throttledSetContent (loc.currentContent ++ c) st)).trans ?_
        rw [throttledSetContent_conversation, hcount _ (by simp)]
    | sources ss =>
        exact (ih { loc with currentSources := ss }
          { st with sources := ss, status := "" }).trans
          (by rw [hcount _ (by simp)])
    | related_questions qs =>
        exact (ih loc { st with relatedQuestions := qs }).trans
          (by rw [hcount _ (by simp)])
    | done =>
        refine (ih loc (commitAssistant loc st)).trans ?_
        have h1 : countAssistantTurns (commitAssistant loc st).conversation =
            countAssistantTurns st.conversation + 1 := by
          simp [commitAssistant, countAssistantTurns, List.filter_append]
        have h2 : countDoneEvents (StreamEvent.done :: rest) =
            countDoneEvents rest + 1 := by
          simp [countDoneEvents, List.filter_cons]
        rw [h1, h2]
        omega
    | error m =>
        exact (ih loc { st with error := some m, isLoading := false, status := "" }).trans
          (by rw [hcount _ (by simp)])

theorem dispatchSearchEvent_done_pair (p : OpLocal × HookState) :
    dispatchSearchEvent StreamEvent.done p = (p.1, commitAssistant p.1 p.2) := rfl

theorem throttledSetContent_op (c : String) (st : HookState)
    (co : Option Nat) (ab : List Nat) :
    throttledSetContent c { st with currentOp := co, aborted := ab } =
      { throttledSetContent c st with currentOp := co, aborted := ab } := by
  by_cases hb : st.throttleTimer = true <;>
    simp [throttledSetContent, hb]

/-- C2: for every stream whose `token` events carry payloads `t1..tn`
(in arrival order) and that ends with a `done` event, the assistant
turn committed at `done` has content `t1 ++ ... ++ tn` (prefixed by the
accumulator, empty at operation start) and carries the source list last
set by a `sources` event; and, in general, exactly one assistant turn
is committed per `done` event.  Throttling does not enter: the commit
reads the local accumulator, not the throttled visible value. -/
theorem c2_token_concat_commit (es : List StreamEvent) (loc : OpLocal)
    (st : HookState) :
    ((∀ e ∈ es, e ≠ StreamEvent.done) →
      (processSearchEvents (es ++ [StreamEvent.done]) (loc, st)).2.conversation =
        st.conversation ++
          [{ role := Role.assistant,
             content := loc.currentContent ++ tokenConcat es,
             sources := some (lastSourcesFrom es loc.currentSources) }]) ∧
    countAssistantTurns (processSearchEvents es (loc, st)).2.conversation =
      countAssistantTurns st.conversation + countDoneEvents es := by
  constructor
  · intro h
    rw [processSearchEvents_append]
    have hsingle : processSearchEvents [StreamEvent.done]
        (processSearchEvents es (loc, st)) =
        dispatchSearchEvent StreamEvent.done (processSearchEvents es (loc, st)) := rfl
    rw [hsingle, dispatchSearchEvent_done_pair]
    show (commitAssistant (processSearchEvents es (loc, st)).1
      (processSearchEvents es (loc, st)).2).conversation = _
    simp only [commitAssistant]
    rw [processSearchEvents_conversation_noDone es loc st h,
      processSearchEvents_currentContent, processSearchEvents_currentSources]
  · exact processSearchEvents_assistant_count es loc st

theorem c2_witness :
    (∀ e ∈ [StreamEvent.token "Hello, ", StreamEvent.token "world",
        StreamEvent.sources [srcExample]], e ≠ StreamEvent.done) ∧
    (processSearchEvents
      ([StreamEvent.token "Hello, ", StreamEvent.token "world",
        StreamEvent.sources [srcExample]] ++ [StreamEvent.done])
      ({ currentContent := "", currentSources := [] },
       initialHookState)).2.conversation =
      [{ role := Role.assistant, content := "Hello, world",
         sources := some [srcExample] }] := by
  refine ⟨by decide, ?_⟩
  rw [(c2_token_concat_commit
    [StreamEvent.token "Hello, ", StreamEvent.token "world",
     StreamEvent.sources [srcExample]]
    { currentContent := "", currentSources := [] } initialHookState).1 (by decide)]
  rfl

/-- C10: the `followUp` dispatcher has no reaction for `session_id` or
`thread_id`, so no event on a follow-up stream ever changes the stored
session or thread identity; on a fresh `search` stream those events do
set them. -/
theorem c10_followup_ids (ev : StreamEvent) (loc : OpLocal) (st : HookState)
    (s t : String) :
    ((dispatchFollowUpEvent ev (loc, st)).2.sessionId = st.sessionId ∧
     (dispatchFollowUpEvent ev (loc, st)).2.threadId = st.threadId) ∧
    (dispatchSearchEvent (StreamEvent.session_id s) (loc, st)).2.sessionId = some s ∧
    (dispatchSearchEvent (StreamEvent.thread_id t) (loc, st)).2.threadId = some t := by
  refine ⟨⟨?_, ?_⟩, rfl, rfl⟩
  · cases ev <;> first | rfl | exact throttledSetContent_sessionId _ _
  · cases ev <;> first | rfl | exact throttledSetContent_threadId _ _

/-- C5 counterexample: at a state with an established session, a thread
and an in-flight operation, `reset` neither clears the session/thread
identity nor aborts the in-flight controller: the claim that `reset`
returns the session identity and thread identity to their initial value
and cancels the in-flight operation is false. -/
theorem c5_counterexample :
    ¬ ((reset inFlightState).sessionId = none ∧
       (reset inFlightState).threadId = none ∧
       0 ∈ (reset inFlightState).aborted) := by decide

/-- C5 (amended): `reset` returns content, sources, related questions,
status, loading, error, conversation, current query and the pending
throttle value to their initial values and cancels the pending throttle
flush (a subsequent flush is a no-op), but it preserves `sessionId` and
`threadId` and does not abort the in-flight operation. -/
theorem c5_reset_amended (st : HookState) :
    reset st = { st with content := "",
                         sources := [],
                         relatedQuestions := [],
                         status := "",
                         isLoading := false,
                         error := none,
                         conversation := [],
                         currentQuery := "",
                         pendingContent := "",
                         throttleTimer := false } ∧
    (reset st).sessionId = st.sessionId ∧
    (reset st).threadId = st.threadId ∧
    (reset st).currentOp = st.currentOp ∧
    (reset st).aborted = st.aborted ∧
    flushThrottle (reset st) = reset st := by
  refine ⟨rfl, rfl, rfl, rfl, rfl, ?_⟩
  simp [flushThrottle, reset]

/-- C6 counterexample: `followUp` without a session identity issues no
network call but also surfaces no user-visible error — the state
(including the `error` field) is completely unchanged, refuting the
claim that the error state is set. -/
theorem c6_counterexample :
    followUpStart "next question" initialHookState = initialHookState ∧
    (followUpStart "next question" initialHookState).error = none ∧
    (followUpStart "next question" initialHookState).requests = [] := by decide

/-- C6 (amended): with a falsy session identity — none established, or
the empty string (the source guard is `if (!sessionId)`) — `followUp`
fails fast with no network call and no state change at all (only a
console diagnostic); with a non-empty session, it issues exactly one
follow-up request carrying the session and thread identity, appends
the user turn, clears the error and enters the loading state. -/
theorem c6_followup_amended (q : String) (st : HookState) :
    ((st.sessionId = none ∨ st.sessionId = some "") →
      followUpStart q st = st) ∧
    (∀ sid, st.sessionId = some sid → sid ≠ "" →
      (followUpStart q st).requests =
        st.requests ++ [(st.nextOp, RequestKind.followUpReq sid st.threadId q)] ∧
      (followUpStart q st).error = none ∧
      (followUpStart q st).isLoading = true ∧
      (followUpStart q st).status = "Thinking..." ∧
      (followUpStart q st).conversation =
        st.conversation ++ [{ role := Role.user, content := q, sources := none }] ∧
      (followUpStart q st).currentOp = some st.nextOp) := by
  constructor
  · intro h
    rcases h with h | h <;> simp [followUpStart, h]
  · intro sid h hne
    cases hc : st.currentOp <;>
      simp [followUpStart, h, hne, followUpScript, execStep, hc]

theorem c6_witness :
    initialHookState.sessionId = none ∧
    followUpStart "q" initialHookState = initialHookState ∧
    ({ initialHookState with sessionId := some "" } : HookState).sessionId =
      some "" ∧
    followUpStart "q" { initialHookState with sessionId := some "" } =
      { initialHookState with sessionId := some "" } :=
  ⟨rfl, (c6_followup_amended "q" initialHookState).1 (Or.inl rfl),
   rfl, (c6_followup_amended "q"
     { initialHookState with sessionId := some "" }).1 (Or.inr rfl)⟩

/-- C1 counterexample: frame processing carries no staleness guard, so
a frame of the superseded first operation (its `done`, processed with
its own local accumulators) that is still processed after the second
`search` has started does mutate the shared conversation state observed
by the new operation — refuting the claim that such processing never
mutates shared state. -/
theorem c1_counterexample :
    (dispatchSearchEvent StreamEvent.done (staleLocal, newOpState)).2.conversation ≠
      newOpState.conversation := by decide

/-- C1 (amended): both `search` and `followUp` (when its session guard
passes) abort the previous controller synchronously before the new
request is issued: the abort is the first micro-step of either prelude
and the fetch the last; after the prelude the old handle is in the
aborted set and the single new request is tagged with the fresh,
non-aborted controller.  However, both event dispatchers are oblivious
to which controller is current: their state transition is identical
whatever `currentOp`/`aborted` hold, so a stale frame that still
reaches a dispatcher mutates shared state exactly as a current frame
would. -/
theorem c1_supersession_amended :
    (∀ (q : String) (file : Bool),
      (searchScript q file).head? = some SearchStep.abortCurrent ∧
      (searchScript q file).getLast? = some (SearchStep.issueFetch file q)) ∧
    (∀ (q : String),
      (followUpScript q).head? = some SearchStep.abortCurrent ∧
      (followUpScript q).getLast? = some (SearchStep.issueFollowUpFetch q)) ∧
    (∀ (q : String) (file : Bool) (st : HookState) (h : Nat),
      st.currentOp = some h → h ∈ (searchStart q file st).aborted) ∧
    (∀ (q : String) (st : HookState) (sid : String) (h : Nat),
      st.sessionId = some sid → sid ≠ "" → st.currentOp = some h →
      h ∈ (followUpStart q st).aborted) ∧
    (∀ (q : String) (file : Bool) (st : HookState),
      (searchStart q file st).requests =
        st.requests ++ [(st.nextOp, requestOf file q)] ∧
      (searchStart q file st).currentOp = some st.nextOp) ∧
    (∀ (q : String) (st : HookState) (sid : String),
      st.sessionId = some sid → sid ≠ "" →
      (followUpStart q st).requests =
        st.requests ++ [(st.nextOp, RequestKind.followUpReq sid st.threadId q)] ∧
      (followUpStart q st).currentOp = some st.nextOp) ∧
    (∀ (q : String) (file : Bool) (st : HookState),
      (∀ a ∈ st.aborted, a < st.nextOp) →
      (∀ h2, st.currentOp = some h2 → h2 < st.nextOp) →
      st.nextOp ∉ (searchStart q file st).aborted) ∧
    (∀ (q : String) (st : HookState),
      (∀ a ∈ st.aborted, a < st.nextOp) →
      (∀ h2, st.currentOp = some h2 → h2 < st.nextOp) →
      st.nextOp ∉ (followUpStart q st).aborted) ∧
    (∀ (ev : StreamEvent) (loc : OpLocal) (st : HookState)
      (co : Option Nat) (ab : List Nat),
      dispatchSearchEvent ev (loc, { st with currentOp := co, aborted := ab }) =
        ((dispatchSearchEvent ev (loc, st)).1,
         { (dispatchSearchEvent ev (loc, st)).2 with currentOp := co, aborted := ab })) ∧
    (∀ (ev : StreamEvent) (loc : OpLocal) (st : HookState)
      (co : Option Nat) (ab : List Nat),
      dispatchFollowUpEvent ev (loc, { st with currentOp := co, aborted := ab }) =
        ((dispatchFollowUpEvent ev (loc, st)).1,
         { (dispatchFollowUpEvent ev (loc, st)).2 with currentOp := co, aborted := ab })) := by
  refine ⟨fun q file => ⟨rfl, rfl⟩, fun q => ⟨rfl, rfl⟩, ?_, ?_, ?_, ?_, ?_, ?_, ?_, ?_⟩
  · intro q file st h hc
    simp [searchStart, searchScript, execStep, hc]
  · intro q st sid h hs hne hc
    simp [followUpStart, hs, hne, followUpScript, execStep, hc]
  · intro q file st
    cases hc : st.currentOp <;>
      simp [searchStart, searchScript, execStep, hc]
  · intro q st sid hs hne
    cases hc : st.currentOp <;>
      simp [followUpStart, hs, hne, followUpScript, execStep, hc]
  · intro q file st hab hcur
    cases hc : st.currentOp with
    | none =>
        simp only [searchStart, searchScript, execStep, hc, List.foldl]
        intro hmem
        have := hab _ hmem
        omega
    | some h2 =>
        simp only [searchStart, searchScript, execStep, hc, List.foldl]
        intro hmem
        rcases List.mem_append.mp hmem with hm | hm
        · have := hab _ hm
          omega
        · have h3 := hcur h2 hc
          have : st.nextOp = h2 := by simpa using hm
          omega
  · intro q st hab hcur
    cases hsid : st.sessionId with
    | none =>
        simp only [followUpStart, hsid]
        intro hmem
        have := hab _ hmem
        omega
    | some sid =>
        by_cases hsE : sid = ""
        · simp only [followUpStart, hsid, if_pos hsE]
          intro hmem
          have := hab _ hmem
          omega
        · cases hc : st.currentOp with
          | none =>
              simp only [followUpStart, hsid, if_neg hsE, followUpScript,
                execStep, hc, List.foldl]
              intro hmem
              have := hab _ hmem
              omega
          | some h2 =>
              simp only [followUpStart, hsid, if_neg hsE, followUpScript,
                execStep, hc, List.foldl]
              intro hmem
              rcases List.mem_append.mp hmem with hm | hm
              · have := hab _ hm
                omega
              · have h3 := hcur h2 hc
                have : st.nextOp = h2 := by simpa using hm
                omega
  · intro ev loc st co ab
    cases ev <;> first | rfl | (simp [dispatchSearchEvent, throttledSetContent_op])
  · intro ev loc st co ab
    cases ev <;> first | rfl | (simp [dispatchFollowUpEvent, throttledSetContent_op])

theorem c1_witness :
    supersededState.currentOp = some 0 ∧
    0 ∈ (searchStart "second" false supersededState).aborted ∧
    inFlightState.sessionId = some "sess-1" ∧
    inFlightState.currentOp = some 0 ∧
    0 ∈ (followUpStart "next" inFlightState).aborted :=
  ⟨by decide,
   c1_supersession_amended.2.2.1 "second" false supersededState 0 (by decide),
   rfl, rfl,
   c1_supersession_amended.2.2.2.1 "next" inFlightState "sess-1" 0 rfl
     (by decide) rfl⟩

theorem consHead_cons {α : Type} (c : α) (l : List α) (ls : List (List α)) :
    consHead c (l :: ls) = (c :: l) :: ls := rfl

theorem splitSep_ne_nil {α : Type} [DecidableEq α] (sep : α) (l : List α) :
    splitSep sep l ≠ [] := by
  cases l with
  | nil => simp [splitSep]
  | cons c r =>
    simp only [splitSep]
    split
    · simp
    · cases h : splitSep sep r with
      | nil => simp [consHead]
      | cons x xs => simp [consHead]

theorem getLastD_irrel {α : Type} (l : List α) (a b : α) (h : l ≠ []) :
    l.getLastD a = l.getLastD b := by
  cases l with
  | nil => exact absurd rfl h
  | cons x xs => rfl

theorem getLastD_append_right {α : Type} (xs ys : List α) (d : α) (h : ys ≠ []) :
    (xs ++ ys).getLastD d = ys.getLastD d := by
  induction xs generalizing d with
  | nil => rfl
  | cons x xs ih =>
    rw [List.cons_append, List.getLastD_cons, ih x]
    exact getLastD_irrel ys x d h

theorem splitSep_append (α : Type) [DecidableEq α] (sep : α) (a b : List α) :
    splitSep sep (a ++ b) =
      (splitSep sep a).dropLast ++
        splitSep sep ((splitSep sep a).getLastD [] ++ b) := by
  induction a with
  | nil => simp [splitSep]
  | cons c a ih =>
    by_cases hcs : c = sep
    · subst hcs
      rw [List.cons_append]
      have h1 : splitSep c (c :: (a ++ b)) = [] :: splitSep c (a ++ b) := by
        simp [splitSep]
      have h2 : splitSep c (c :: a) = [] :: splitSep c a := by
        simp [splitSep]
      rw [h1, h2, ih]
      rw [List.dropLast_cons_of_ne_nil (splitSep_ne_nil c a), List.getLastD_cons,
        List.cons_append]
    · rw [List.cons_append]
      have h1 : splitSep sep (c :: (a ++ b)) = consHead c (splitSep sep (a ++ b)) := by
        simp [splitSep, hcs]
      have h2 : splitSep sep (c :: a) = consHead c (splitSep sep a) := by
        simp [splitSep, hcs]
      rw [h1, h2, ih]
      cases hS : splitSep sep a with
      | nil => exact absurd hS (splitSep_ne_nil sep a)
      | cons l ls =>
        cases ls with
        | nil =>
          show consHead c (splitSep sep (l ++ b)) = splitSep sep ((c :: l) ++ b)
          have h4 : splitSep sep ((c :: l) ++ b) =
              consHead c (splitSep sep (l ++ b)) := by
            rw [List.cons_append]
            simp [splitSep, hcs]
          rw [h4]
        | cons x ls2 =>
          simp only [consHead_cons, List.dropLast_cons₂, List.getLastD_cons,
            List.cons_append]

theorem splitSep_no_sep {α : Type} [DecidableEq α] (sep : α) (l : List α)
    (h : sep ∉ l) : splitSep sep l = [l] := by
  induction l with
  | nil => rfl
  | cons c r ih =>
    have hc : ¬ c = sep := fun he => h (he ▸ List.mem_cons_self _ _)
    have hr : sep ∉ r := fun hm => h (List.mem_cons_of_mem _ hm)
    simp [splitSep, hc, ih hr, consHead]

theorem splitSep_getLastD_no_sep {α : Type} [DecidableEq α] (sep : α)
    (l : List α) : sep ∉ (splitSep sep l).getLastD [] := by
  induction l with
  | nil => simp [splitSep]
  | cons c r ih =>
    by_cases hcs : c = sep
    · subst hcs
      have h1 : splitSep c (c :: r) = [] :: splitSep c r := by simp [splitSep]
      rw [h1, List.getLastD_cons]
      exact ih
    · have h1 : splitSep sep (c :: r) = consHead c (splitSep sep r) := by
        simp [splitSep, hcs]
      rw [h1]
      cases hS : splitSep sep r with
      | nil => exact absurd hS (splitSep_ne_nil sep r)
      | cons l2 ls =>
        rw [hS] at ih
        cases ls with
        | nil =>
          rw [consHead_cons]
          simp only [List.getLastD_cons, List.getLastD_nil] at ih ⊢
          intro hmem
          rcases List.mem_cons.mp hmem with he | hm
          · exact hcs he.symm
          · exact ih hm
        | cons x ls2 =>
          rw [consHead_cons]
          simp only [List.getLastD_cons] at ih ⊢
          exact ih

theorem processLines_append (parse : String → Option StreamEvent)
    (dispatch : StreamEvent → OpLocal × HookState → OpLocal × HookState)
    (a b : List (List Char)) (p : OpLocal × HookState) :
    processLines parse dispatch (a ++ b) p =
      processLines parse dispatch b (processLines parse dispatch a p) := by
  simp [processLines, List.foldl_append]

theorem runStream_fold (parse : String → Option StreamEvent)
    (dispatch : StreamEvent → OpLocal × HookState → OpLocal × HookState)
    (chunks : List (List Char)) (buf : List Char) (p : OpLocal × HookState)
    (hbuf : '\n' ∉ buf) :
    chunks.foldl (streamStep parse dispatch) (buf, p) =
      ((splitSep '\n' (buf ++ chunksJoin chunks)).getLastD [],
       processLines parse dispatch
         (splitSep '\n' (buf ++ chunksJoin chunks)).dropLast p) := by
  induction chunks generalizing buf p with
  | nil =>
    rw [show chunksJoin ([] : List (List Char)) = [] from rfl, List.append_nil]
    rw [splitSep_no_sep '\n' buf hbuf]
    rfl
  | cons c chunks ih =>
    rw [List.foldl_cons]
    have hstep : streamStep parse dispatch (buf, p) c =
        ((splitSep '\n' (buf ++ c)).getLastD [],
         processLines parse dispatch (splitSep '\n' (buf ++ c)).dropLast p) := rfl
    rw [hstep, ih _ _ (splitSep_getLastD_no_sep '\n' (buf ++ c))]
    have hjoin : buf ++ chunksJoin (c :: chunks) = (buf ++ c) ++ chunksJoin chunks := by
      rw [show chunksJoin (c :: chunks) = c ++ chunksJoin chunks from rfl,
        List.append_assoc]
    have hsplit : splitSep '\n' ((buf ++ c) ++ chunksJoin chunks) =
        (splitSep '\n' (buf ++ c)).dropLast ++
          splitSep '\n' ((splitSep '\n' (buf ++ c)).getLastD [] ++
            chunksJoin chunks) := splitSep_append _ '\n' _ _
    have hne : splitSep '\n' ((splitSep '\n' (buf ++ c)).getLastD [] ++
        chunksJoin chunks) ≠ [] := splitSep_ne_nil _ _
    rw [hjoin, hsplit, getLastD_append_right _ _ _ hne,
      List.dropLast_append_of_ne_nil _ hne,
      processLines_append]

/-- C9: the read loop parses exactly the newline-terminated lines of
the received text: its final state equals processing the `dropLast` of
the newline split of the concatenated chunks, so any bytes left in the
carry-over buffer at end of stream — e.g. a final `done` or `error`
frame lacking a trailing newline — are discarded unparsed and produce
no state transition (second conjunct: a stream with no newline at all
leaves the state untouched, whatever the parser would have returned). -/
theorem c9_trailing_fragment (parse : String → Option StreamEvent)
    (chunks : List (List Char)) (loc : OpLocal) (st : HookState) :
    ((runStream parse dispatchSearchEvent chunks (loc, st)).2 =
      processLines parse dispatchSearchEvent
        (splitSep '\n' (chunksJoin chunks)).dropLast (loc, st)) ∧
    ('\n' ∉ chunksJoin chunks →
      (runStream parse dispatchSearchEvent chunks (loc, st)).2 = (loc, st)) := by
  have hrun := runStream_fold parse dispatchSearchEvent chunks [] (loc, st)
    (by simp)
  rw [List.nil_append] at hrun
  constructor
  · rw [runStream, hrun]
  · intro hno
    rw [runStream, hrun]
    show processLines parse dispatchSearchEvent
      (splitSep '\n' (chunksJoin chunks)).dropLast (loc, st) = (loc, st)
    rw [splitSep_no_sep '\n' _ hno]
    rfl

theorem c9_witness :
    ('\n' ∉ chunksJoin [("data: x").data]) ∧
    (runStream (fun _ => some StreamEvent.done) dispatchSearchEvent
      [("data: x").data]
      ({ currentContent := "", currentSources := [] }, initialHookState)).2 =
      ({ currentContent := "", currentSources := [] }, initialHookState) :=
  ⟨by decide,
   (c9_trailing_fragment (fun _ => some StreamEvent.done) [("data: x").data]
     { currentContent := "", currentSources := [] } initialHookState).2
     (by decide)⟩

theorem throttleStep_supply (st : ThrottleState) (v : String) (t : Nat) :
    throttleStep st (ThrottleAct.supply v t) =
      if st.now ≤ t then
        some { st with
          now := t,
          pendingContent := v,
          timer := match st.timer with
            | some d => some d
            | none => some (t + 33) }
      else none := rfl

theorem throttleStep_fire (st : ThrottleState) (t : Nat) :
    throttleStep st (ThrottleAct.fire t) =
      match st.timer with
      | some d =>
          if st.now ≤ t ∧ d ≤ t then
            some { st with now := t, content := st.pendingContent, timer := none }
          else none
      | none => none := rfl

theorem throttleRun_single (st : ThrottleState) (a : ThrottleAct) :
    throttleRun st [a] = throttleStep st a := by
  show (match throttleStep st a with
    | some st2 => throttleRun st2 []
    | none => none) = throttleStep st a
  cases h : throttleStep st a <;> rfl

theorem throttleRun_append (acts1 acts2 : List ThrottleAct) (st : ThrottleState) :
    throttleRun st (acts1 ++ acts2) =
      (throttleRun st acts1).bind (fun m => throttleRun m acts2) := by
  induction acts1 generalizing st with
  | nil => rfl
  | cons a rest ih =>
    rw [List.cons_append]
    simp only [throttleRun]
    cases h : throttleStep st a with
    | none => rfl
    | some st2 => exact ih st2

theorem throttleStep_supply_elim (st stm : ThrottleState) (v : String) (t : Nat)
    (hstep : throttleStep st (ThrottleAct.supply v t) = some stm) :
    st.now ≤ t ∧
      stm = { st with
        now := t,
        pendingContent := v,
        timer := match st.timer with
          | some d => some d
          | none => some (t + 33) } := by
  rw [throttleStep_supply] at hstep
  by_cases hle : st.now ≤ t
  · rw [if_pos hle] at hstep
    exact ⟨hle, (Option.some.inj hstep).symm⟩
  · rw [if_neg hle] at hstep
    exact absurd hstep (by simp)

theorem throttleStep_fire_elim (st stm : ThrottleState) (t : Nat)
    (hstep : throttleStep st (ThrottleAct.fire t) = some stm) :
    ∃ d, st.timer = some d ∧ st.now ≤ t ∧ d ≤ t ∧
      stm = { st with now := t, content := st.pendingContent, timer := none } := by
  rw [throttleStep_fire] at hstep
  cases ht : st.timer with
  | none =>
    rw [ht] at hstep
    exact Option.noConfusion hstep
  | some d =>
    rw [ht] at hstep
    have hstep2 : (if st.now ≤ t ∧ d ≤ t then
        some { st with now := t, content := st.pendingContent, timer := none }
      else none) = some stm := hstep
    by_cases hcond : st.now ≤ t ∧ d ≤ t
    · rw [if_pos hcond] at hstep2
      exact ⟨d, rfl, hcond.1, hcond.2, (Option.some.inj hstep2).symm⟩
    · rw [if_neg hcond] at hstep2
      exact absurd hstep2 (by simp)

theorem throttleRun_pending (acts : List ThrottleAct) :
    ∀ (st st2 : ThrottleState), throttleRun st acts = some st2 →
      st2.pendingContent = lastSuppliedD acts st.pendingContent := by
  induction acts with
  | nil =>
    intro st st2 h
    have he := Option.some.inj h
    subst he
    rfl
  | cons a rest ih =>
    intro st st2 h
    simp only [throttleRun] at h
    cases hstep : throttleStep st a with
    | none => rw [hstep] at h; exact absurd h (by simp)
    | some stm =>
      rw [hstep] at h
      cases a with
      | supply v t =>
        obtain ⟨hle, hrec⟩ := throttleStep_supply_elim st stm v t hstep
        have hp : stm.pendingContent = v := by rw [hrec]
        rw [show lastSuppliedD (ThrottleAct.supply v t :: rest) st.pendingContent =
          lastSuppliedD rest v from rfl]
        rw [ih stm st2 h, hp]
      | fire t =>
        obtain ⟨d, ht, hle, hd, hrec⟩ := throttleStep_fire_elim st stm t hstep
        have hp : stm.pendingContent = st.pendingContent := by rw [hrec]
        rw [show lastSuppliedD (ThrottleAct.fire t :: rest) st.pendingContent =
          lastSuppliedD rest st.pendingContent from rfl]
        rw [ih stm st2 h, hp]

theorem throttleRun_quiet (acts : List ThrottleAct) :
    ∀ (st st2 : ThrottleState),
      (st.timer = none → st.content = st.pendingContent) →
      throttleRun st acts = some st2 →
      (st2.timer = none → st2.content = st2.pendingContent) := by
  induction acts with
  | nil =>
    intro st st2 hk h
    have he := Option.some.inj h
    subst he
    exact hk
  | cons a rest ih =>
    intro st st2 hk h
    simp only [throttleRun] at h
    cases hstep : throttleStep st a with
    | none => rw [hstep] at h; exact absurd h (by simp)
    | some stm =>
      rw [hstep] at h
      refine ih stm st2 ?_ h
      cases a with
      | supply v t =>
        obtain ⟨hle, hrec⟩ := throttleStep_supply_elim st stm v t hstep
        intro htm
        rw [hrec] at htm
        exfalso
        cases ht : st.timer with
        | none => simp only [ht] at htm; exact Option.noConfusion htm
        | some d => simp only [ht] at htm; exact Option.noConfusion htm
      | fire t =>
        obtain ⟨d, ht, hle, hd, hrec⟩ := throttleStep_fire_elim st stm t hstep
        intro _
        rw [hrec]

theorem throttleRun_gapInv (acts : List ThrottleAct) :
    ∀ (st st2 : ThrottleState) (t1 : Nat),
      t1 ≤ st.now → (∀ d, st.timer = some d → t1 + 33 ≤ d) →
      throttleRun st acts = some st2 →
      t1 ≤ st2.now ∧ (∀ d, st2.timer = some d → t1 + 33 ≤ d) := by
  induction acts with
  | nil =>
    intro st st2 t1 h1 h2 h
    have he := Option.some.inj h
    subst he
    exact ⟨h1, h2⟩
  | cons a rest ih =>
    intro st st2 t1 h1 h2 h
    simp only [throttleRun] at h
    cases hstep : throttleStep st a with
    | none => rw [hstep] at h; exact absurd h (by simp)
    | some stm =>
      rw [hstep] at h
      refine ih stm st2 t1 ?_ ?_ h
      · cases a with
        | supply v t =>
          obtain ⟨hle, hrec⟩ := throttleStep_supply_elim st stm v t hstep
          rw [hrec]
          show t1 ≤ t
          omega
        | fire t =>
          obtain ⟨d, ht, hle, hd, hrec⟩ := throttleStep_fire_elim st stm t hstep
          rw [hrec]
          show t1 ≤ t
          omega
      · cases a with
        | supply v t =>
          obtain ⟨hle, hrec⟩ := throttleStep_supply_elim st stm v t hstep
          intro d hd
          rw [hrec] at hd
          cases ht : st.timer with
          | none =>
            simp only [ht] at hd
            have := Option.some.inj hd
            omega
          | some d0 =>
            simp only [ht] at hd
            have := Option.some.inj hd
            have := h2 d0 ht
            omega
        | fire t =>
          obtain ⟨d, ht, hle, hd, hrec⟩ := throttleStep_fire_elim st stm t hstep
          intro d2 hd2
          rw [hrec] at hd2
          exact absurd hd2 (by simp)

/-- C8: the content throttler (`throttledSetContent` with its 33 ms
`setTimeout`) (a) coalesces: a supply while a flush is pending only
overwrites the pending value and leaves the scheduled deadline alone,
so at most one flush is ever pending (the timer is one optional
deadline); (b) each flush publishes the pending — most recently
supplied — value and clears the timer; (c) any two flushes are at
least 33 ms apart, so the visible value changes at most once per
interval regardless of supply rate; (d) after the pending flush has
fired (quiet period), the visible content equals the last supplied
value — no trailing update is lost. -/
theorem c8_throttler :
    (∀ (st : ThrottleState) (v : String) (t d : Nat),
      st.timer = some d → st.now ≤ t →
      throttleStep st (ThrottleAct.supply v t) =
        some { st with now := t, pendingContent := v }) ∧
    (∀ (st st2 : ThrottleState) (t : Nat),
      throttleStep st (ThrottleAct.fire t) = some st2 →
      st2.content = st.pendingContent ∧ st2.timer = none) ∧
    (∀ (st st2 : ThrottleState) (pre mid post : List ThrottleAct) (t1 t2 : Nat),
      throttleRun st
        (pre ++ ThrottleAct.fire t1 :: (mid ++ ThrottleAct.fire t2 :: post)) =
          some st2 →
      t1 + 33 ≤ t2) ∧
    (∀ (st : ThrottleState) (acts : List ThrottleAct) (st2 : ThrottleState),
      st.timer = none → st.content = st.pendingContent →
      throttleRun st acts = some st2 → st2.timer = none →
      st2.content = lastSuppliedD acts st.pendingContent) := by
  refine ⟨?_, ?_, ?_, ?_⟩
  · intro st v t d ht hle
    simp only [throttleStep_supply, if_pos hle, ht]
  · intro st st2 t h
    obtain ⟨d, ht, hle, hd, hrec⟩ := throttleStep_fire_elim st st2 t h
    rw [hrec]
    exact ⟨rfl, rfl⟩
  · intro st st2 pre mid post t1 t2 h
    have hform : pre ++ ThrottleAct.fire t1 :: (mid ++ ThrottleAct.fire t2 :: post) =
        pre ++ ([ThrottleAct.fire t1] ++ (mid ++ ([ThrottleAct.fire t2] ++ post))) := rfl
    rw [hform, throttleRun_append] at h
    cases h1 : throttleRun st pre with
    | none => rw [h1] at h; exact absurd h (by simp)
    | some m1 =>
      rw [h1, Option.some_bind, throttleRun_append] at h
      cases h2 : throttleRun m1 [ThrottleAct.fire t1] with
      | none => rw [h2] at h; exact absurd h (by simp)
      | some m2 =>
        rw [h2, Option.some_bind, throttleRun_append] at h
        cases h3 : throttleRun m2 mid with
        | none => rw [h3] at h; exact absurd h (by simp)
        | some m3 =>
          rw [h3, Option.some_bind, throttleRun_append] at h
          cases h4 : throttleRun m3 [ThrottleAct.fire t2] with
          | none => rw [h4] at h; exact absurd h (by simp)
          | some m4 =>
            rw [throttleRun_single] at h2 h4
            obtain ⟨d1, ht1, hle1, hd1, hrec1⟩ :=
              throttleStep_fire_elim m1 m2 t1 h2
            have hnow2 : t1 ≤ m2.now := by rw [hrec1]
            have htm2 : ∀ d, m2.timer = some d → t1 + 33 ≤ d := by
              intro d hd
              rw [hrec1] at hd
              exact absurd hd (by simp)
            have hinv3 := throttleRun_gapInv mid m2 m3 t1 hnow2 htm2 h3
            obtain ⟨d2, ht2, hle2, hd2, hrec2⟩ :=
              throttleStep_fire_elim m3 m4 t2 h4
            have := hinv3.2 d2 ht2
            omega
  · intro st acts st2 h1 h2 hrun ht2
    have hk := throttleRun_quiet acts st st2 (fun _ => h2) hrun
    rw [hk ht2]
    exact throttleRun_pending acts st st2 hrun

theorem c8_witness :
    throttleRun throttleInit
      [ThrottleAct.supply "a" 0, ThrottleAct.supply "ab" 10, ThrottleAct.fire 33] =
      some { pendingContent := "ab", timer := none, content := "ab", now := 33 } ∧
    ({ pendingContent := "ab", timer := none, content := "ab",
       now := 33 } : ThrottleState).content =
      lastSuppliedD
        [ThrottleAct.supply "a" 0, ThrottleAct.supply "ab" 10, ThrottleAct.fire 33]
        throttleInit.pendingContent := by
  refine ⟨by decide, ?_⟩
  exact c8_throttler.2.2.2 throttleInit
    [ThrottleAct.supply "a" 0, ThrottleAct.supply "ab" 10, ThrottleAct.fire 33]
    { pendingContent := "ab", timer := none, content := "ab", now := 33 }
    rfl rfl (by decide) rfl

theorem substLoop_pass (s : List Source) (pre : List Char) (t : List Char)
    (h : '[' ∉ pre) :
    substLoop s (pre ++ t) none = pre ++ substLoop s t none := by
  induction pre with
  | nil => rfl
  | cons c p ih =>
    have hc : ¬ c = '[' := fun he => h (he ▸ List.mem_cons_self _ _)
    have hp : '[' ∉ p := fun hm => h (List.mem_cons_of_mem _ hm)
    rw [List.cons_append]
    simp only [substLoop]
    rw [if_neg hc, ih hp, List.cons_append]

theorem substLoop_enter (s : List Source) (rest : List Char) :
    substLoop s ('[' :: rest) none = substLoop s rest (some []) := by
  simp only [substLoop]
  simp

theorem substLoop_digits (s : List Source) (post : List Char) :
    ∀ (ds acc : List Char), (∀ c ∈ ds, c.isDigit) →
    substLoop s (ds ++ ']' :: post) (some acc) =
      (if acc ++ ds = [] then '[' :: ']' :: substLoop s post none
       else markerOut s (acc ++ ds) ++ substLoop s post none) := by
  intro ds
  induction ds with
  | nil =>
    intro acc h
    rw [List.nil_append, List.append_nil]
    simp only [substLoop]
    simp
  | cons d ds ih =>
    intro acc h
    have hd : d.isDigit := h d (List.mem_cons_self _ _)
    have hds : ∀ c ∈ ds, c.isDigit := fun c hc => h c (List.mem_cons_of_mem _ hc)
    rw [List.cons_append]
    simp only [substLoop]
    rw [if_pos hd, ih (acc ++ [d]) hds, List.append_assoc]
    rfl

/-- C4: citation substitution replaces a bracketed numeric marker
`[ds]` by the interactive superscript carrying the zero-based index
`n - 1`, the source's URL and title (inside `citationSup`) exactly when
`1 ≤ n ≤ L` for a source list of length `L`, and leaves every
out-of-range marker (including `[0]` and any `n > L`) as literal
unchanged text; the scan is total (never throws) and the marker's
digits survive in both branches (inside the superscript or as literal
text), so no marker is ever removed. -/
theorem c4_citation_bounds (s : List Source) (pre ds post : List Char)
    (hpre : '[' ∉ pre) (hne : ds ≠ []) (hdig : ∀ c ∈ ds, c.isDigit) :
    substCitations s (pre ++ '[' :: (ds ++ ']' :: post)) =
      pre ++ ((if 1 ≤ natOfDigits ds ∧ natOfDigits ds ≤ s.length
        then (citationSup (natOfDigits ds - 1)
          (s.getD (natOfDigits ds - 1) dfltSource) (String.mk ds)).data
        else '[' :: (ds ++ [']'])) ++ substCitations s post) := by
  rw [substCitations, substLoop_pass s pre _ hpre]
  congr 1
  rw [substLoop_enter, substLoop_digits s post ds [] hdig, List.nil_append,
    if_neg hne]
  simp only [substCitations]
  congr 1
  simp only [markerOut]
  by_cases hn : 1 ≤ natOfDigits ds ∧ natOfDigits ds ≤ s.length
  · rw [if_pos (by omega), if_pos hn]
  · rw [if_neg (by omega), if_neg hn]

theorem c4_witness :
    ('[' ∉ "See ".data) ∧ (['1'] ≠ ([] : List Char)) ∧
    (∀ c ∈ ['1'], c.isDigit) ∧
    substCitations twoSources
      ("See ".data ++ '[' :: (['1'] ++ ']' :: " and [3]".data)) =
      "See ".data ++
        ((if 1 ≤ natOfDigits ['1'] ∧ natOfDigits ['1'] ≤ twoSources.length
          then (citationSup (natOfDigits ['1'] - 1)
            (twoSources.getD (natOfDigits ['1'] - 1) dfltSource)
            (String.mk ['1'])).data
          else '[' :: (['1'] ++ [']'])) ++
        substCitations twoSources " and [3]".data) :=
  ⟨by decide, by decide, by decide,
   c4_citation_bounds twoSources "See ".data ['1'] " and [3]".data
     (by decide) (by decide) (by decide)⟩

set_option maxRecDepth 100000 in
/-- C3 counterexample: the renderer substitutes markers over the RAW
untrusted content and sanitizes only afterwards; on a marker
interrupted by a disallowed tag, the claimed
sanitize-substitute-sanitize pipeline produces an interactive marker
while the code leaves literal text — the claim that the allow-list
sanitizer runs over the input before marker substitution is false. -/
theorem c3_counterexample :
    renderContentWithCitations cexContent [srcExample] ≠
      dompurifySanitize
        (substCitations [srcExample] (dompurifySanitize cexContent)) := by
  decide

/-- C3 (amended): for a finalized turn the renderer runs marker
substitution directly on the raw untrusted content and then applies
the allow-list sanitizer once as a final pass over the substituted
output (with an empty source list it only sanitizes); the message
component applies the same sanitizer once more at display time; and
every tag surviving sanitization has an allow-listed name, so no
script-bearing element and no disallowed attribute reaches the
rendered output. -/
theorem c3_sanitize_amended (c : List Char) (s : List Source) :
    (s = [] → renderContentWithCitations c s = dompurifySanitize c) ∧
    (s ≠ [] → renderContentWithCitations c s =
      dompurifySanitize (substCitations s c)) ∧
    conversationRendered (renderContentWithCitations c s) =
      dompurifySanitize (renderContentWithCitations c s) ∧
    (∀ (x : List Char) (cl : Bool) (nm : List Char)
      (ats : List (List Char × List Char)),
      HtmlTok.tag cl nm ats ∈ sanitizeToks (tokenize x) → nm ∈ allowedTags) := by
  refine ⟨?_, ?_, rfl, ?_⟩
  · intro h
    subst h
    rfl
  · intro h
    cases s with
    | nil => exact absurd rfl h
    | cons a t => rfl
  · intro x cl nm ats hmem
    simp only [sanitizeToks] at hmem
    rw [List.mem_filterMap] at hmem
    obtain ⟨t0, ht0, hf⟩ := hmem
    cases t0 with
    | text s2 => simp at hf
    | tag cl2 nm2 ats2 =>
      have hf2 : (if nm2 ∈ allowedTags then
          some (HtmlTok.tag cl2 nm2 (ats2.filter (fun a =>
            decide (a.1 ∈ allowedAttrs) || isDataAttr a.1)))
        else none) = some (HtmlTok.tag cl nm ats) := hf
      by_cases ht : nm2 ∈ allowedTags
      · rw [if_pos ht] at hf2
        have heq := Option.some.inj hf2
        injection heq with e1 e2 e3
        rw [← e2]
        exact ht
      · rw [if_neg ht] at hf2
        exact Option.noConfusion hf2

theorem c3_witness :
    (([] : List Source) = []) ∧
    renderContentWithCitations "<p>hi</p>".data [] =
      dompurifySanitize "<p>hi</p>".data ∧
    (twoSources ≠ []) ∧
    renderContentWithCitations "x [1]".data twoSources =
      dompurifySanitize (substCitations twoSources "x [1]".data) :=
  ⟨rfl, (c3_sanitize_amended "<p>hi</p>".data []).1 rfl,
   by decide, (c3_sanitize_amended "x [1]".data twoSources).2.1 (by decide)⟩

theorem decodeAvail_nil : decodeAvail [] = ([], []) := by
  simp only [decodeAvail]

theorem decodeAvail_cons (b : Nat) (rest : List Nat) :
    decodeAvail (b :: rest) =
      if lenOfLead b = 0 then
        (65533 :: (decodeAvail rest).1, (decodeAvail rest).2)
      else if rest.length + 1 < lenOfLead b then ([], b :: rest)
      else
        (decodeBytes (b :: rest.take (lenOfLead b - 1)) ::
          (decodeAvail (rest.drop (lenOfLead b - 1))).1,
         (decodeAvail (rest.drop (lenOfLead b - 1))).2) := by
  simp only [decodeAvail]

theorem encodeChar_spec (v : Nat) (hv : v < 1114112) :
    encodeChar v ≠ [] ∧
    lenOfLead ((encodeChar v).headD 0) = (encodeChar v).length ∧
    decodeBytes (encodeChar v) = v := by
  by_cases h1 : v < 128
  · have e : encodeChar v = [v] := by simp [encodeChar, h1]
    rw [e]
    refine ⟨by simp, ?_, by simp [decodeBytes]⟩
    simp [lenOfLead, h1]
  · by_cases h2 : v < 2048
    · have e : encodeChar v = [192 + v / 64, 128 + v % 64] := by
        simp [encodeChar, h1, h2]
      rw [e]
      refine ⟨by simp, ?_, ?_⟩
      · have c1 : ¬ (192 + v / 64 < 128) := by omega
        have c2 : ¬ (192 + v / 64 < 192) := by omega
        have c3 : 192 + v / 64 < 224 := by omega
        simp [lenOfLead, c1, c2, c3]
      · simp only [decodeBytes]
        omega
    · by_cases h3 : v < 65536
      · have e : encodeChar v =
            [224 + v / 4096, 128 + v / 64 % 64, 128 + v % 64] := by
          simp [encodeChar, h1, h2, h3]
        rw [e]
        refine ⟨by simp, ?_, ?_⟩
        · have c1 : ¬ (224 + v / 4096 < 128) := by omega
          have c2 : ¬ (224 + v / 4096 < 192) := by omega
          have c3 : ¬ (224 + v / 4096 < 224) := by omega
          have c4 : 224 + v / 4096 < 240 := by omega
          simp [lenOfLead, c1, c2, c3, c4]
        · simp only [decodeBytes]
          omega
      · have e : encodeChar v = [240 + v / 262144, 128 + v / 4096 % 64,
            128 + v / 64 % 64, 128 + v % 64] := by
          simp [encodeChar, h1, h2, h3]
        rw [e]
        refine ⟨by simp, ?_, ?_⟩
        · have c1 : ¬ (240 + v / 262144 < 128) := by omega
          have c2 : ¬ (240 + v / 262144 < 192) := by omega
          have c3 : ¬ (240 + v / 262144 < 224) := by omega
          have c4 : ¬ (240 + v / 262144 < 240) := by omega
          have c5 : 240 + v / 262144 < 248 := by omega
          simp [lenOfLead, c1, c2, c3, c4, c5]
        · simp only [decodeBytes]
          omega

theorem decodeAvail_encodeChar (v : Nat) (hv : v < 1114112) (t : List Nat) :
    decodeAvail (encodeChar v ++ t) =
      (v :: (decodeAvail t).1, (decodeAvail t).2) := by
  obtain ⟨hne, hlen, hdec⟩ := encodeChar_spec v hv
  cases he : encodeChar v with
  | nil => exact absurd he hne
  | cons b0 btail =>
    rw [he] at hlen hdec
    simp only [List.headD_cons, List.length_cons] at hlen
    rw [List.cons_append, decodeAvail_cons, hlen]
    rw [if_neg (by omega), if_neg (by rw [List.length_append]; omega)]
    have e1 : btail.length + 1 - 1 = btail.length := by omega
    rw [e1, List.take_left, List.drop_left, hdec]

theorem decodeAvail_utf8Encode (cs : List Nat) (h : ∀ v ∈ cs, v < 1114112) :
    decodeAvail (utf8Encode cs) = (cs, []) := by
  induction cs with
  | nil => exact decodeAvail_nil
  | cons v rest ih =>
    rw [show utf8Encode (v :: rest) = encodeChar v ++ utf8Encode rest from rfl]
    rw [decodeAvail_encodeChar v (h v (List.mem_cons_self _ _)) _]
    rw [ih (fun w hw => h w (List.mem_cons_of_mem _ hw))]

theorem decodeAvail_append_aux (n : Nat) :
    ∀ (x : List Nat), x.length ≤ n → ∀ (y : List Nat),
    decodeAvail (x ++ y) =
      ((decodeAvail x).1 ++ (decodeAvail ((decodeAvail x).2 ++ y)).1,
       (decodeAvail ((decodeAvail x).2 ++ y)).2) := by
  induction n with
  | zero =>
    intro x hx y
    have hxe : x = [] := List.eq_nil_of_length_eq_zero (Nat.le_zero.mp hx)
    subst hxe
    rw [decodeAvail_nil]
    simp
  | succ n ih =>
    intro x hx y
    cases x with
    | nil =>
      rw [decodeAvail_nil]
      simp
    | cons b r =>
      have hr : r.length ≤ n := by
        rw [List.length_cons] at hx
        omega
      rw [List.cons_append]
      by_cases h0 : lenOfLead b = 0
      · have hL : decodeAvail (b :: (r ++ y)) =
            (65533 :: (decodeAvail (r ++ y)).1, (decodeAvail (r ++ y)).2) := by
          rw [decodeAvail_cons, if_pos h0]
        have hR : decodeAvail (b :: r) =
            (65533 :: (decodeAvail r).1, (decodeAvail r).2) := by
          rw [decodeAvail_cons, if_pos h0]
        rw [hL, hR, ih r hr y]
        simp [List.cons_append]
      · by_cases hinc : r.length + 1 < lenOfLead b
        · have hR : decodeAvail (b :: r) = ([], b :: r) := by
            rw [decodeAvail_cons, if_neg h0, if_pos hinc]
          rw [hR]
          simp [List.cons_append]
        · have hle : lenOfLead b - 1 ≤ r.length := by omega
          have hR : decodeAvail (b :: r) =
              (decodeBytes (b :: r.take (lenOfLead b - 1)) ::
                (decodeAvail (r.drop (lenOfLead b - 1))).1,
               (decodeAvail (r.drop (lenOfLead b - 1))).2) := by
            rw [decodeAvail_cons, if_neg h0, if_neg hinc]
          have hL : decodeAvail (b :: (r ++ y)) =
              (decodeBytes (b :: (r ++ y).take (lenOfLead b - 1)) ::
                (decodeAvail ((r ++ y).drop (lenOfLead b - 1))).1,
               (decodeAvail ((r ++ y).drop (lenOfLead b - 1))).2) := by
            rw [decodeAvail_cons, if_neg h0,
              if_neg (by rw [List.length_append]; omega)]
          have hdr : (r.drop (lenOfLead b - 1)).length ≤ n := by
            rw [List.length_drop]
            omega
          rw [hL, hR, List.take_append_of_le_length hle,
            List.drop_append_of_le_length hle,
            ih (r.drop (lenOfLead b - 1)) hdr y]
          simp [List.cons_append]

theorem decodeAvail_append (x y : List Nat) :
    decodeAvail (x ++ y) =
      ((decodeAvail x).1 ++ (decodeAvail ((decodeAvail x).2 ++ y)).1,
       (decodeAvail ((decodeAvail x).2 ++ y)).2) :=
  decodeAvail_append_aux x.length x (le_refl _) y

theorem decodeAvail_snd_fix_aux (n : Nat) :
    ∀ (l : List Nat), l.length ≤ n →
    decodeAvail ((decodeAvail l).2) = ([], (decodeAvail l).2) := by
  induction n with
  | zero =>
    intro l hl
    have hle : l = [] := List.eq_nil_of_length_eq_zero (Nat.le_zero.mp hl)
    subst hle
    rw [decodeAvail_nil]
    exact decodeAvail_nil
  | succ n ih =>
    intro l hl
    cases l with
    | nil =>
      rw [decodeAvail_nil]
      exact decodeAvail_nil
    | cons b r =>
      have hr : r.length ≤ n := by
        rw [List.length_cons] at hl
        omega
      by_cases h0 : lenOfLead b = 0
      · rw [show (decodeAvail (b :: r)).2 = (decodeAvail r).2 from by
          rw [decodeAvail_cons, if_pos h0]]
        exact ih r hr
      · by_cases hinc : r.length + 1 < lenOfLead b
        · rw [show (decodeAvail (b :: r)).2 = b :: r from by
            rw [decodeAvail_cons, if_neg h0, if_pos hinc]]
          rw [decodeAvail_cons, if_neg h0, if_pos hinc]
        · rw [show (decodeAvail (b :: r)).2 =
              (decodeAvail (r.drop (lenOfLead b - 1))).2 from by
            rw [decodeAvail_cons, if_neg h0, if_neg hinc]]
          refine ih (r.drop (lenOfLead b - 1)) ?_
          rw [List.length_drop]
          omega

theorem decodeAvail_snd_fix (l : List Nat) :
    decodeAvail ((decodeAvail l).2) = ([], (decodeAvail l).2) :=
  decodeAvail_snd_fix_aux l.length l (le_refl _)

theorem decodeFold_join (chunks : List (List Nat)) :
    ∀ (buf : List Nat), decodeAvail buf = ([], buf) →
      chunksJoin (decodeFold buf chunks).1 =
        (decodeAvail (buf ++ chunksJoin chunks)).1 ∧
      (decodeFold buf chunks).2 = (decodeAvail (buf ++ chunksJoin chunks)).2 := by
  induction chunks with
  | nil =>
    intro buf hbuf
    rw [show chunksJoin ([] : List (List Nat)) = [] from rfl, List.append_nil,
      hbuf]
    exact ⟨rfl, rfl⟩
  | cons c rest ih =>
    intro buf hbuf
    have hleft : decodeAvail ((decodeAvail (buf ++ c)).2) =
        ([], (decodeAvail (buf ++ c)).2) := decodeAvail_snd_fix (buf ++ c)
    obtain ⟨ih1, ih2⟩ := ih (decodeAvail (buf ++ c)).2 hleft
    have hjoin : buf ++ chunksJoin (c :: rest) =
        (buf ++ c) ++ chunksJoin rest := by
      rw [show chunksJoin (c :: rest) = c ++ chunksJoin rest from rfl,
        List.append_assoc]
    constructor
    · show (decodeAvail (buf ++ c)).1 ++
        chunksJoin (decodeFold (decodeAvail (buf ++ c)).2 rest).1 = _
      rw [ih1, hjoin, decodeAvail_append (buf ++ c) (chunksJoin rest)]
    · show (decodeFold (decodeAvail (buf ++ c)).2 rest).2 = _
      rw [ih2, hjoin, decodeAvail_append (buf ++ c) (chunksJoin rest)]

theorem lineAcc_fold (chunks : List (List Nat)) :
    ∀ (buf : List Nat) (out : List (List Nat)), (10 : Nat) ∉ buf →
    chunks.foldl lineAccStep (buf, out) =
      ((splitSep 10 (buf ++ chunksJoin chunks)).getLastD [],
       out ++ (splitSep 10 (buf ++ chunksJoin chunks)).dropLast) := by
  induction chunks with
  | nil =>
    intro buf out hbuf
    rw [show chunksJoin ([] : List (List Nat)) = [] from rfl, List.append_nil,
      splitSep_no_sep 10 buf hbuf]
    simp
  | cons c rest ih =>
    intro buf out hbuf
    rw [List.foldl_cons]
    have hstep : lineAccStep (buf, out) c =
        ((splitSep 10 (buf ++ c)).getLastD [],
         out ++ (splitSep 10 (buf ++ c)).dropLast) := rfl
    rw [hstep, ih _ _ (splitSep_getLastD_no_sep 10 (buf ++ c))]
    have hjoin : buf ++ chunksJoin (c :: rest) = (buf ++ c) ++ chunksJoin rest := by
      rw [show chunksJoin (c :: rest) = c ++ chunksJoin rest from rfl,
        List.append_assoc]
    have hsplit : splitSep 10 ((buf ++ c) ++ chunksJoin rest) =
        (splitSep 10 (buf ++ c)).dropLast ++
          splitSep 10 ((splitSep 10 (buf ++ c)).getLastD [] ++
            chunksJoin rest) := splitSep_append _ 10 _ _
    have hne : splitSep 10 ((splitSep 10 (buf ++ c)).getLastD [] ++
        chunksJoin rest) ≠ [] := splitSep_ne_nil _ _
    rw [hjoin, hsplit, getLastD_append_right _ _ _ hne,
      List.dropLast_append_of_ne_nil _ hne, List.append_assoc]

/-- C7: the decode loop — stateful incremental UTF-8 decoding threaded
across byte chunks, followed by newline splitting with a carry-over
buffer — delivers, for ANY partition of the same encoded text into
byte chunks (including partitions that split a multi-byte character),
identical line sequences, equal to the newline split of the decoded
text minus its trailing unterminated fragment: no data loss, no
corrupted character, and only fully newline-terminated lines are
offered for parsing. -/
theorem c7_chunk_invariance (cs : List Nat) (chunks1 chunks2 : List (List Nat))
    (hval : ∀ v ∈ cs, v < 1114112)
    (h1 : chunksJoin chunks1 = utf8Encode cs)
    (h2 : chunksJoin chunks2 = utf8Encode cs) :
    decodeLines chunks1 = decodeLines chunks2 ∧
    decodeLines chunks1 = (splitSep 10 cs).dropLast := by
  have hmain : ∀ chunks : List (List Nat), chunksJoin chunks = utf8Encode cs →
      decodeLines chunks = (splitSep 10 cs).dropLast := by
    intro chunks hj
    obtain ⟨hfst, hsnd⟩ := decodeFold_join chunks [] decodeAvail_nil
    rw [List.nil_append, hj, decodeAvail_utf8Encode cs hval] at hfst
    show ((decodeFold [] chunks).1.foldl lineAccStep ([], [])).2 = _
    rw [lineAcc_fold (decodeFold [] chunks).1 [] [] (by simp)]
    simp only [List.nil_append, hfst]
  exact ⟨(hmain chunks1 h1).trans (hmain chunks2 h2).symm, hmain chunks1 h1⟩

theorem c7_witness :
    (∀ v ∈ ([233, 10, 97] : List Nat), v < 1114112) ∧
    chunksJoin [[195], [169, 10, 97]] = utf8Encode [233, 10, 97] ∧
    chunksJoin [[195, 169, 10, 97]] = utf8Encode [233, 10, 97] ∧
    decodeLines [[195], [169, 10, 97]] = decodeLines [[195, 169, 10, 97]] ∧
    decodeLines [[195], [169, 10, 97]] =
      (splitSep 10 ([233, 10, 97] : List Nat)).dropLast ∧
    (splitSep 10 ([233, 10, 97] : List Nat)).dropLast = [[233]] := by
  refine ⟨by decide, by decide, by decide, ?_, ?_, by decide⟩
  · exact (c7_chunk_invariance [233, 10, 97] [[195], [169, 10, 97]]
      [[195, 169, 10, 97]] (by decide) (by decide) (by decide)).1
  · exact (c7_chunk_invariance [233, 10, 97] [[195], [169, 10, 97]]
      [[195, 169, 10, 97]] (by decide) (by decide) (by decide)).2

end Zemixity
